import Mathlib

/-!
Verification of the constraint-graph engine of `circuit-graph-analysis`.

The embedding follows `internal/analyzer.go` (graph building and analysis)
and the loader file (`LoadFromJson`, `LoadFromSym`, `stringToInt`,
`GenerateRandomArgs`).  Go slices of `int64` become `List Int`; a Go
index-out-of-range panic (and gonum's `SetEdge` panic on self-loops) is
modelled by `Option`/an explicit `panic` constructor, since a panic aborts
the computation instead of returning a value.  Go map iteration order is
not deterministic; the embedding fixes one order (first/last occurrence of
keys), which is immaterial for the set-level properties proved below.
-/

namespace CircuitGraph

/-- Go type `[3][]int64`: one constraint, a triple of linear expressions,
each holding the signal indices that occur in it. -/
abbrev Constraint := List Int × List Int × List Int

/-- Go type `Constraints [][3][]int64`. -/
abbrev Constraints := List Constraint

/-- All signal indices referenced by a constraint, across its three linear
expressions (with multiplicity; `buildGraph` dedups via its `signalSet`). -/
def constraintKeys (c : Constraint) : List Int :=
  c.1 ++ c.2.1 ++ c.2.2

/-- `NamedNode` from `analyzer.go`: a graph node carrying its signal index
(`IDVal`, Go `int64`) and display name. -/
structure NamedNode where
  IDVal : Int
  Name : String
deriving DecidableEq, Repr

/-- Value-level model of gonum's `simple.UndirectedGraph` as used here:
a node set and an edge set over node ids.  Edges are kept as normalised
pairs (smaller id first); gonum stores one edge object per unordered pair
of distinct ids, so a list of normalised pairs without duplicates is the
faithful set-level picture. -/
structure UndirectedGraph where
  nodes : List NamedNode
  edges : List (Int × Int)
deriving DecidableEq, Repr

namespace UndirectedGraph

/-- `simple.NewUndirectedGraph()`. -/
def empty : UndirectedGraph := ⟨[], []⟩

/-- `g.Node(id)` followed by the `.(*NamedNode)` assertion: the node with
this id, when present (`nil` / failed assertion becomes `none`). -/
def node (g : UndirectedGraph) (id : Int) : Option NamedNode :=
  g.nodes.find? (fun n => n.IDVal = id)

/-- The ids of the graph's nodes. -/
def nodeIds (g : UndirectedGraph) : List Int :=
  g.nodes.map (·.IDVal)

/-- `g.AddNode(n)` (only called in `buildGraph` when `n.IDVal` is absent). -/
def addNode (g : UndirectedGraph) (n : NamedNode) : UndirectedGraph :=
  ⟨g.nodes ++ [n], g.edges⟩

/-- The unordered pair `{a, b}` in normalised form. -/
def pairOf (a b : Int) : Int × Int :=
  if a ≤ b then (a, b) else (b, a)

/-- `g.SetEdge(simple.Edge{F:a, T:b})`: gonum panics when `a = b`
(modelled as `none`); otherwise it records the edge, replacing any
existing edge on the same unordered pair (idempotent on the edge set). -/
def setEdge (g : UndirectedGraph) (a b : Int) : Option UndirectedGraph :=
  if a = b then none
  else if pairOf a b ∈ g.edges then some g
  else some ⟨g.nodes, g.edges ++ [pairOf a b]⟩

/-- `g.From(id)`: the neighbours of `id`, read off the edge set. -/
def neighbors (g : UndirectedGraph) (id : Int) : List Int :=
  g.edges.filterMap (fun e =>
    if e.1 = id then some e.2 else if e.2 = id then some e.1 else none)

/-- `gc.RemoveNode(id)`: drop the node with this id and every incident
edge (a no-op when the id is absent). -/
def removeNode (g : UndirectedGraph) (id : Int) : UndirectedGraph :=
  ⟨g.nodes.filter (fun n => n.IDVal ≠ id),
   g.edges.filter (fun e => e.1 ≠ id ∧ e.2 ≠ id)⟩

end UndirectedGraph

/-- The Go expression `signals[signal]` on a slice: the entry at the
index when `0 ≤ signal < len(signals)`, otherwise an index-out-of-range
panic (`none`). -/
def nameAt (signals : List String) (i : Int) : Option String :=
  if 0 ≤ i then signals.get? i.toNat else none

/-- `buildGraph`'s per-signal step: `graph.Node(signal)` with the
`*NamedNode` assertion, creating the node (named `signals[signal]`) when
it is missing.  A missing name entry is the panic case. -/
def getOrAddNode (g : UndirectedGraph) (signals : List String) (s : Int) :
    Option (UndirectedGraph × NamedNode) :=
  match g.node s with
  | some n => some (g, n)
  | none =>
    match nameAt signals s with
    | none => none
    | some nm => some (g.addNode ⟨s, nm⟩, ⟨s, nm⟩)

/-- The `for signal := range signalSet` loop of `buildGraph`: collect the
node for each signal of the constraint, creating missing ones. -/
def collectNodes (signals : List String) :
    UndirectedGraph → List Int → Option (UndirectedGraph × List NamedNode)
  | g, [] => some (g, [])
  | g, s :: rest =>
    match getOrAddNode g signals s with
    | none => none
    | some (g', n) =>
      match collectNodes signals g' rest with
      | none => none
      | some (g'', ns) => some (g'', n :: ns)

/-- The inner loop `for j := i+1 ...`: connect `n` to each node of `rest`. -/
def connectFrom (g : UndirectedGraph) (n : NamedNode) :
    List NamedNode → Option UndirectedGraph
  | [] => some g
  | m :: rest =>
    match g.setEdge n.IDVal m.IDVal with
    | none => none
    | some g' => connectFrom g' n rest

/-- The outer loop `for i := 0 ...`: connect every pair of the collected
nodes. -/
def connectAll (g : UndirectedGraph) :
    List NamedNode → Option UndirectedGraph
  | [] => some g
  | n :: rest =>
    match connectFrom g n rest with
    | none => none
    | some g' => connectAll g' rest

/-- The `signalSet` of one constraint: the distinct referenced indices
(a Go `map[int64]struct{}`; the embedding fixes the order `List.dedup`
picks, which no set-level property depends on). -/
def constraintSigs (c : Constraint) : List Int :=
  (constraintKeys c).dedup

/-- One iteration of `buildGraph`'s outer loop over constraints. -/
def processConstraint (signals : List String) (g : UndirectedGraph)
    (c : Constraint) : Option UndirectedGraph :=
  match collectNodes signals g (constraintSigs c) with
  | none => none
  | some (g', ns) => connectAll g' ns

/-- The loop of `buildGraph` over the constraint list. -/
def buildGraphAux (signals : List String) :
    UndirectedGraph → Constraints → Option UndirectedGraph
  | g, [] => some g
  | g, c :: rest =>
    match processConstraint signals g c with
    | none => none
    | some g' => buildGraphAux signals g' rest

/-- `buildGraph(data, signals)` from `analyzer.go`.  `none` models the
run aborting with a panic (out-of-range name lookup). -/
def buildGraph (data : Constraints) (signals : List String) :
    Option UndirectedGraph :=
  buildGraphAux signals UndirectedGraph.empty data

/-- `findUnderconstrainedSignals`: walk the nodes, reporting the name of
each node whose neighbour count is at most 1. -/
def findUnderconstrainedSignals (g : UndirectedGraph) : List String :=
  g.nodes.foldl
    (fun acc n =>
      if (g.neighbors n.IDVal).length ≤ 1 then acc ++ [n.Name] else acc)
    []

/-- One union step of a component partition: merge every block touching an
endpoint of the edge into a single block. -/
def mergeStep (comps : List (List Int)) (e : Int × Int) : List (List Int) :=
  let touched := comps.filter (fun c => e.1 ∈ c ∨ e.2 ∈ c)
  if touched.isEmpty then comps
  else touched.flatten :: comps.filter (fun c => ¬(e.1 ∈ c ∨ e.2 ∈ c))

/-- `topo.ConnectedComponents(g)` by its contract (gonum returns the
connected components of the graph): start from singleton blocks, one per
node, and union across every edge. -/
def ConnectedComponents (g : UndirectedGraph) : List (List Int) :=
  g.edges.foldl mergeStep (g.nodes.map (fun n => [n.IDVal]))

/-- The connectivity part of `analyzeGraph`: copy the graph (`graph.Copy`
— pure values need no explicit copy), remove node 0 and its incident
edges from the copy, and compute the components of the remainder. -/
def analyzeGraphSubgraphs (g : UndirectedGraph) : List (List Int) :=
  ConnectedComponents (g.removeNode 0)

/-- Adjacency in a graph, in either orientation of the stored pair. -/
def Adj (g : UndirectedGraph) (a b : Int) : Prop :=
  (a, b) ∈ g.edges ∨ (b, a) ∈ g.edges

/-- Reachability: the reflexive-transitive closure of adjacency. -/
def Reach (g : UndirectedGraph) : Int → Int → Prop :=
  Relation.ReflTransGen (Adj g)

/-! ### The loader file: `stringToInt`, `LoadFromJson`, `LoadFromSym`,
`GenerateRandomArgs` -/

/-- Decimal digit test, the character class `fmt`'s `%d` verb accepts
(code points 0x30 to 0x39). -/
def isDecDigit (c : Char) : Bool :=
  0x30 ≤ c.toNat && c.toNat ≤ 0x39

/-- The whitespace table of Go's `fmt` scanner (`space` in `scan.go`),
used by `SkipSpace`: 0x09-0x0D, space, NEL, NBSP, OGHAM SPACE MARK, the
0x2000-0x200A range, LINE/PARAGRAPH SEPARATOR, NARROW NBSP, MMSP, and
IDEOGRAPHIC SPACE. -/
def isGoSpace (c : Char) : Bool :=
  (0x09 ≤ c.toNat ∧ c.toNat ≤ 0x0D) ∨ c.toNat = 0x20 ∨ c.toNat = 0x85 ∨
    c.toNat = 0xA0 ∨ c.toNat = 0x1680 ∨
    (0x2000 ≤ c.toNat ∧ c.toNat ≤ 0x200A) ∨ c.toNat = 0x2028 ∨
    c.toNat = 0x2029 ∨ c.toNat = 0x202F ∨ c.toNat = 0x205F ∨
    c.toNat = 0x3000

/-- Value of a string of decimal digits. -/
def digitsVal (ds : List Char) : Nat :=
  ds.foldl (fun acc c => acc * 10 + (c.toNat - '0'.toNat)) 0

/-- Largest `int64`. -/
def int64Max : Int := 2 ^ 63 - 1

/-- Smallest `int64`. -/
def int64Min : Int := -(2 ^ 63)

/-- The scan `fmt.Sscanf(s, "%d", &result)` performs: `SkipSpace` skips
leading runes from the `fmt` space table — except `'\n'`, which `Sscanf`
rejects ("unexpected newline") since the format has none; a `'\r'` is
consumed as a space either way, so `"\r\n..."` still fails on the
newline — then the verb accepts an optional sign and a nonempty run of
decimal digits and parses them as an `int64`.  `none` is any scan error
(leading newline after the skipped spaces, no digits, or a value out of
`int64` range), in which case `result` keeps its zero value. -/
def scanInt64 (s : List Char) : Option Int :=
  let t := s.dropWhile (fun c => isGoSpace c = true ∧ c ≠ '\n')
  if t.head? = some '\n' then none
  else
    let u := if t.head? = some '-' ∨ t.head? = some '+' then t.tail else t
    let ds := u.takeWhile isDecDigit
    if ds.isEmpty then none
    else
      let v : Int :=
        if t.head? = some '-' then -(digitsVal ds : Int)
        else (digitsVal ds : Int)
      if int64Min ≤ v ∧ v ≤ int64Max then some v else none

/-- `stringToInt` from the loader: `Sscanf` into an `int64` initialised to
0, ignoring the error, so any scan failure leaves 0. -/
def stringToInt (s : String) : Int :=
  (scanInt64 s.toList).getD 0

/-- The unmarshalled shape of the constraints document that matters to
`LoadFromJson`: per constraint, three maps whose keys are the
string-encoded signal indices (values are ignored); a map is embedded as
its key list. -/
abbrev ConstraintsDoc := List (List String × List String × List String)

/-- The conversion loop of `LoadFromJson`: every key of every linear
expression goes through `stringToInt`. -/
def LoadFromJson (doc : ConstraintsDoc) : Constraints :=
  doc.map (fun t =>
    (t.1.map stringToInt, t.2.1.map stringToInt, t.2.2.map stringToInt))

/-- Outcome of `LoadFromSym`: a normal return carrying the name list, an
error return (the csv reader's error), or a runtime panic — which in Go
crashes the process, it is not an error return. -/
inductive SymResult where
  | ok (signals : List String)
  | err
  | panic
deriving DecidableEq, Repr

/-- The field-count check `encoding/csv`'s `ReadAll` applies with the
default `FieldsPerRecord`: every record must have as many fields as the
first; otherwise `ReadAll` returns an error.  The input is the record
list the reader would produce (text-level csv parsing is abstracted). -/
def csvConsistent (records : List (List String)) : Bool :=
  match records with
  | [] => true
  | r :: rest => rest.all (fun x => x.length = r.length)

/-- The extraction loop of `LoadFromSym`: `record[3]` for each record, a
panic when a record has fewer than four fields. -/
def extractNames (acc : List String) : List (List String) → SymResult
  | [] => .ok acc
  | r :: rest =>
    match r.get? 3 with
    | none => .panic
    | some nm => extractNames (acc ++ [nm]) rest

/-- `LoadFromSym`: read all csv records, then prepend `"1"` (index 0) and
append each record's fourth field in order. -/
def LoadFromSym (records : List (List String)) : SymResult :=
  if csvConsistent records then extractNames ["1"] records else .err

/-- `GenerateRandomArgs(count)`: `rand.Intn(14) + 2` for each slot.  The
process-wide random source is modelled as a stream `rng` of draws;
`Intn(14)` returns the draw reduced into `[0, 14)`. -/
def GenerateRandomArgs (count : Nat) (rng : Nat → Nat) : List Int :=
  (List.range count).map (fun i => ((rng i % 14 : Nat) : Int) + 2)

/-! ### Invariants and specification predicates -/

/-- A signal index is a valid index into the name table (`signals[i]`
does not panic). -/
def inRangeSig (signals : List String) (i : Int) : Prop :=
  0 ≤ i ∧ i.toNat < signals.length

instance (signals : List String) (i : Int) : Decidable (inRangeSig signals i) :=
  inferInstanceAs (Decidable (_ ∧ _))

/-- Structural well-formedness every graph produced by `buildGraph` has:
distinct node ids, a duplicate-free and normalised edge list whose
endpoints are nodes, and every node named by its name-table entry. -/
structure GraphWF (signals : List String) (g : UndirectedGraph) : Prop where
  nodupIds : g.nodeIds.Nodup
  nodupEdges : g.edges.Nodup
  normEdges : ∀ e ∈ g.edges, e.1 < e.2
  edgeLeft : ∀ e ∈ g.edges, e.1 ∈ g.nodeIds
  edgeRight : ∀ e ∈ g.edges, e.2 ∈ g.nodeIds
  names : ∀ n ∈ g.nodes, nameAt signals n.IDVal = some n.Name

/-- Two ids lie in one block of a component partition. -/
def SameComp (comps : List (List Int)) (a b : Int) : Prop :=
  ∃ c ∈ comps, a ∈ c ∧ b ∈ c

/-! ### Supporting lemmas: name lookup and node lookup -/

theorem nameAt_isSome_iff {signals : List String} {i : Int} :
    (nameAt signals i).isSome = true ↔ inRangeSig signals i := by
  unfold nameAt inRangeSig
  by_cases h : 0 ≤ i
  · rw [if_pos h, Option.isSome_iff_ne_none, ne_eq, List.get?_eq_none]
    omega
  · rw [if_neg h]
    simp only [Option.isSome_none, Bool.false_eq_true, false_iff]
    intro hc
    exact h hc.1

theorem nameAt_eq_none {signals : List String} {i : Int}
    (h : ¬ inRangeSig signals i) : nameAt signals i = none := by
  rw [← Option.not_isSome_iff_eq_none]
  intro hs
  exact h (nameAt_isSome_iff.mp hs)

theorem node_eq_none_iff {g : UndirectedGraph} {i : Int} :
    g.node i = none ↔ i ∉ g.nodeIds := by
  unfold UndirectedGraph.node UndirectedGraph.nodeIds
  rw [List.find?_eq_none]
  simp only [decide_eq_true_eq, List.mem_map, not_exists, not_and]

theorem node_eq_some_facts {g : UndirectedGraph} {i : Int} {n : NamedNode}
    (h : g.node i = some n) : n ∈ g.nodes ∧ n.IDVal = i := by
  refine ⟨List.mem_of_find?_eq_some h, ?_⟩
  have := List.find?_some h
  simpa using this

theorem mem_nodeIds_of_mem {g : UndirectedGraph} {n : NamedNode}
    (h : n ∈ g.nodes) : n.IDVal ∈ g.nodeIds :=
  List.mem_map.mpr ⟨n, h, rfl⟩

/-! ### Supporting lemmas: `pairOf` and `setEdge` -/

theorem pairOf_cases (a b : Int) :
    UndirectedGraph.pairOf a b = (a, b) ∨ UndirectedGraph.pairOf a b = (b, a) := by
  unfold UndirectedGraph.pairOf
  by_cases h : a ≤ b
  · exact Or.inl (by rw [if_pos h])
  · exact Or.inr (by rw [if_neg h])

theorem pairOf_lt {a b : Int} (hab : a ≠ b) :
    (UndirectedGraph.pairOf a b).1 < (UndirectedGraph.pairOf a b).2 := by
  unfold UndirectedGraph.pairOf
  by_cases h : a ≤ b
  · rw [if_pos h]
    exact lt_of_le_of_ne h hab
  · rw [if_neg h]
    simp only
    omega

theorem setEdge_full {signals : List String} {g : UndirectedGraph} {a b : Int}
    (hwf : GraphWF signals g) (hab : a ≠ b)
    (ha : a ∈ g.nodeIds) (hb : b ∈ g.nodeIds) :
    ∃ g', g.setEdge a b = some g' ∧ GraphWF signals g' ∧ g'.nodes = g.nodes ∧
      (∀ e, e ∈ g'.edges ↔ e ∈ g.edges ∨ e = UndirectedGraph.pairOf a b) := by
  unfold UndirectedGraph.setEdge
  rw [if_neg hab]
  have hp1 : (UndirectedGraph.pairOf a b).1 ∈ g.nodeIds := by
    rcases pairOf_cases a b with h | h <;> rw [h] <;> assumption
  have hp2 : (UndirectedGraph.pairOf a b).2 ∈ g.nodeIds := by
    rcases pairOf_cases a b with h | h <;> rw [h] <;> assumption
  by_cases hmem : UndirectedGraph.pairOf a b ∈ g.edges
  · refine ⟨g, by rw [if_pos hmem], hwf, rfl, fun e => ?_⟩
    constructor
    · exact fun he => Or.inl he
    · rintro (he | rfl)
      · exact he
      · exact hmem
  · refine ⟨⟨g.nodes, g.edges ++ [UndirectedGraph.pairOf a b]⟩, by rw [if_neg hmem], ?_, rfl, fun e => ?_⟩
    · refine ⟨hwf.nodupIds, ?_, ?_, ?_, ?_, hwf.names⟩
      · rw [List.nodup_append]
        exact ⟨hwf.nodupEdges, List.nodup_singleton _,
          by rw [List.disjoint_singleton]; exact hmem⟩
      · intro e he
        rcases List.mem_append.mp he with h | h
        · exact hwf.normEdges e h
        · rw [List.mem_singleton.mp h]
          exact pairOf_lt hab
      · intro e he
        rcases List.mem_append.mp he with h | h
        · exact hwf.edgeLeft e h
        · rw [List.mem_singleton.mp h]
          exact hp1
      · intro e he
        rcases List.mem_append.mp he with h | h
        · exact hwf.edgeRight e h
        · rw [List.mem_singleton.mp h]
          exact hp2
    · simp [List.mem_append]

/-! ### Supporting lemmas: the edge loops of `buildGraph` -/

theorem connectFrom_full {signals : List String} (n : NamedNode) :
    ∀ (rest : List NamedNode) (g : UndirectedGraph), GraphWF signals g →
    n.IDVal ∈ g.nodeIds → (∀ m ∈ rest, m.IDVal ∈ g.nodeIds) →
    (∀ m ∈ rest, m.IDVal ≠ n.IDVal) →
    ∃ g', connectFrom g n rest = some g' ∧ GraphWF signals g' ∧
      g'.nodes = g.nodes
  | [], g, hwf, _, _, _ => ⟨g, rfl, hwf, rfl⟩
  | m :: rest, g, hwf, hn, hm, hne => by
    obtain ⟨g1, hset, hwf1, hnodes1, _⟩ :=
      setEdge_full hwf (Ne.symm (hne m (List.mem_cons_self m rest)))
        hn (hm m (List.mem_cons_self m rest))
    have hids1 : g1.nodeIds = g.nodeIds := by
      unfold UndirectedGraph.nodeIds
      rw [hnodes1]
    obtain ⟨g', hrec, hwf', hnodes'⟩ :=
      connectFrom_full n rest g1 hwf1 (by rw [hids1]; exact hn)
        (fun x hx => by rw [hids1]; exact hm x (List.mem_cons_of_mem m hx))
        (fun x hx => hne x (List.mem_cons_of_mem m hx))
    refine ⟨g', ?_, hwf', by rw [hnodes', hnodes1]⟩
    unfold connectFrom
    rw [hset]
    exact hrec

theorem connectAll_full {signals : List String} :
    ∀ (ns : List NamedNode) (g : UndirectedGraph), GraphWF signals g →
    (∀ m ∈ ns, m.IDVal ∈ g.nodeIds) → (ns.map (·.IDVal)).Nodup →
    ∃ g', connectAll g ns = some g' ∧ GraphWF signals g' ∧
      g'.nodes = g.nodes
  | [], g, hwf, _, _ => ⟨g, rfl, hwf, rfl⟩
  | n :: rest, g, hwf, hm, hnd => by
    have hnd' : (rest.map (·.IDVal)).Nodup ∧ n.IDVal ∉ rest.map (·.IDVal) := by
      rw [List.map_cons, List.nodup_cons] at hnd
      exact ⟨hnd.2, hnd.1⟩
    obtain ⟨g1, hcf, hwf1, hnodes1⟩ :=
      connectFrom_full n rest g hwf (hm n (List.mem_cons_self n rest))
        (fun x hx => hm x (List.mem_cons_of_mem n hx))
        (fun x hx hix => hnd'.2 (by rw [← hix]; exact List.mem_map.mpr ⟨x, hx, rfl⟩))
    have hids1 : g1.nodeIds = g.nodeIds := by
      unfold UndirectedGraph.nodeIds
      rw [hnodes1]
    obtain ⟨g', hrec, hwf', hnodes'⟩ :=
      connectAll_full rest g1 hwf1
        (fun x hx => by rw [hids1]; exact hm x (List.mem_cons_of_mem n hx))
        hnd'.1
    refine ⟨g', ?_, hwf', by rw [hnodes', hnodes1]⟩
    unfold connectAll
    rw [hcf]
    exact hrec

/-! ### Supporting lemmas: node collection -/

theorem getOrAddNode_some {signals : List String} {g : UndirectedGraph} {s : Int}
    (hwf : GraphWF signals g) (hs : inRangeSig signals s) :
    ∃ g' n, getOrAddNode g signals s = some (g', n) ∧ GraphWF signals g' ∧
      n.IDVal = s ∧ n ∈ g'.nodes ∧ g'.edges = g.edges ∧ g.nodes ⊆ g'.nodes ∧
      (∀ i, i ∈ g'.nodeIds ↔ i ∈ g.nodeIds ∨ i = s) := by
  unfold getOrAddNode
  cases hnode : g.node s with
  | some n =>
    obtain ⟨hmem, hid⟩ := node_eq_some_facts hnode
    refine ⟨g, n, rfl, hwf, hid, hmem, rfl, fun x hx => hx, fun i => ?_⟩
    constructor
    · exact fun h => Or.inl h
    · rintro (h | rfl)
      · exact h
      · rw [← hid]
        exact mem_nodeIds_of_mem hmem
  | none =>
    have hnm : ∃ nm, nameAt signals s = some nm :=
      Option.isSome_iff_exists.mp (nameAt_isSome_iff.mpr hs)
    obtain ⟨nm, hnm⟩ := hnm
    rw [hnm]
    have hsno : s ∉ g.nodeIds := node_eq_none_iff.mp hnode
    refine ⟨g.addNode ⟨s, nm⟩, ⟨s, nm⟩, rfl, ?_, rfl, ?_, rfl, ?_, fun i => ?_⟩
    · refine ⟨?_, hwf.nodupEdges, hwf.normEdges, ?_, ?_, ?_⟩
      · unfold UndirectedGraph.nodeIds UndirectedGraph.addNode
        simp only [List.map_append, List.map_cons, List.map_nil]
        rw [List.nodup_append]
        exact ⟨hwf.nodupIds, List.nodup_singleton _,
          by rw [List.disjoint_singleton]; exact hsno⟩
      · intro e he
        unfold UndirectedGraph.nodeIds UndirectedGraph.addNode
        simp only [List.map_append, List.mem_append]
        exact Or.inl (hwf.edgeLeft e he)
      · intro e he
        unfold UndirectedGraph.nodeIds UndirectedGraph.addNode
        simp only [List.map_append, List.mem_append]
        exact Or.inl (hwf.edgeRight e he)
      · intro x hx
        unfold UndirectedGraph.addNode at hx
        rcases List.mem_append.mp hx with h | h
        · exact hwf.names x h
        · rw [List.mem_singleton.mp h]
          exact hnm
    · unfold UndirectedGraph.addNode
      exact List.mem_append.mpr (Or.inr (List.mem_singleton.mpr rfl))
    · intro x hx
      exact List.mem_append.mpr (Or.inl hx)
    · unfold UndirectedGraph.nodeIds UndirectedGraph.addNode
      simp [List.mem_append]

theorem getOrAddNode_none {signals : List String} {g : UndirectedGraph} {s : Int}
    (hwf : GraphWF signals g) (hs : ¬ inRangeSig signals s) :
    getOrAddNode g signals s = none := by
  unfold getOrAddNode
  have hnode : g.node s = none := by
    cases hnode : g.node s with
    | none => rfl
    | some n =>
      obtain ⟨hmem, hid⟩ := node_eq_some_facts hnode
      have := hwf.names n hmem
      rw [hid] at this
      exact absurd (nameAt_isSome_iff.mp (by rw [this]; rfl)) hs
  rw [hnode, nameAt_eq_none hs]

theorem collectNodes_some {signals : List String} :
    ∀ (sigs : List Int) (g : UndirectedGraph), GraphWF signals g →
    (∀ s ∈ sigs, inRangeSig signals s) →
    ∃ g' ns, collectNodes signals g sigs = some (g', ns) ∧ GraphWF signals g' ∧
      ns.map (·.IDVal) = sigs ∧ (∀ m ∈ ns, m ∈ g'.nodes) ∧
      g'.edges = g.edges ∧ g.nodes ⊆ g'.nodes ∧
      (∀ i, i ∈ g'.nodeIds ↔ i ∈ g.nodeIds ∨ i ∈ sigs)
  | [], g, hwf, _ => by
    refine ⟨g, [], rfl, hwf, rfl, by simp, rfl, fun x hx => hx, fun i => by simp⟩
  | s :: rest, g, hwf, hin => by
    obtain ⟨g1, n, hget, hwf1, hid, hn1, hed1, hsub1, hids1⟩ :=
      getOrAddNode_some hwf (hin s (List.mem_cons_self s rest))
    obtain ⟨g', ns, hrec, hwf', hmap, hns, hed', hsub', hids'⟩ :=
      collectNodes_some rest g1 hwf1 (fun x hx => hin x (List.mem_cons_of_mem s hx))
    refine ⟨g', n :: ns, ?_, hwf', ?_, ?_, ?_, ?_, fun i => ?_⟩
    · unfold collectNodes
      rw [hget]
      dsimp only
      rw [hrec]
    · rw [List.map_cons, hmap, hid]
    · intro m hm
      rcases List.mem_cons.mp hm with rfl | hm
      · exact hsub' hn1
      · exact hns m hm
    · rw [hed', hed1]
    · exact fun x hx => hsub' (hsub1 hx)
    · rw [hids', hids1 i, List.mem_cons]
      tauto

theorem collectNodes_none {signals : List String} :
    ∀ (sigs : List Int) (g : UndirectedGraph), GraphWF signals g →
    (∃ s ∈ sigs, ¬ inRangeSig signals s) → collectNodes signals g sigs = none
  | [], _, _, h => by
    obtain ⟨s, hs, _⟩ := h
    exact absurd hs (List.not_mem_nil s)
  | s :: rest, g, hwf, h => by
    by_cases hs : inRangeSig signals s
    · obtain ⟨g1, n, hget, hwf1, _, _, _, _, _⟩ := getOrAddNode_some hwf hs
      have hbad : ∃ x ∈ rest, ¬ inRangeSig signals x := by
        obtain ⟨x, hx, hnx⟩ := h
        rcases List.mem_cons.mp hx with rfl | hx
        · exact absurd hs hnx
        · exact ⟨x, hx, hnx⟩
      unfold collectNodes
      rw [hget]
      dsimp only
      rw [collectNodes_none rest g1 hwf1 hbad]
    · unfold collectNodes
      rw [getOrAddNode_none hwf hs]

/-! ### Supporting lemmas: per-constraint step and the build loop -/

theorem processConstraint_some {signals : List String} {g : UndirectedGraph}
    {c : Constraint} (hwf : GraphWF signals g)
    (hc : ∀ s ∈ constraintKeys c, inRangeSig signals s) :
    ∃ g', processConstraint signals g c = some g' ∧ GraphWF signals g' ∧
      (∀ i, i ∈ g'.nodeIds ↔ i ∈ g.nodeIds ∨ i ∈ constraintKeys c) := by
  have hc' : ∀ s ∈ constraintSigs c, inRangeSig signals s := by
    intro s hs
    exact hc s (List.mem_dedup.mp hs)
  obtain ⟨g1, ns, hcol, hwf1, hmap, hns, _, _, hids1⟩ :=
    collectNodes_some (constraintSigs c) g hwf hc'
  obtain ⟨g', hconn, hwf', hnodes'⟩ :=
    connectAll_full ns g1 hwf1
      (fun m hm => mem_nodeIds_of_mem (hns m hm))
      (by rw [hmap]; exact List.nodup_dedup _)
  refine ⟨g', ?_, hwf', fun i => ?_⟩
  · unfold processConstraint
    rw [hcol]
    exact hconn
  · have : g'.nodeIds = g1.nodeIds := by
      unfold UndirectedGraph.nodeIds
      rw [hnodes']
    rw [this, hids1 i]
    unfold constraintSigs at *
    rw [List.mem_dedup]

theorem processConstraint_none {signals : List String} {g : UndirectedGraph}
    {c : Constraint} (hwf : GraphWF signals g)
    (hc : ∃ s ∈ constraintKeys c, ¬ inRangeSig signals s) :
    processConstraint signals g c = none := by
  have hc' : ∃ s ∈ constraintSigs c, ¬ inRangeSig signals s := by
    obtain ⟨s, hs, hns⟩ := hc
    exact ⟨s, List.mem_dedup.mpr hs, hns⟩
  unfold processConstraint
  rw [collectNodes_none (constraintSigs c) g hwf hc']

theorem buildGraphAux_some {signals : List String} :
    ∀ (data : Constraints) (g : UndirectedGraph), GraphWF signals g →
    (∀ c ∈ data, ∀ s ∈ constraintKeys c, inRangeSig signals s) →
    ∃ g', buildGraphAux signals g data = some g' ∧ GraphWF signals g' ∧
      (∀ i, i ∈ g'.nodeIds ↔ i ∈ g.nodeIds ∨ ∃ c ∈ data, i ∈ constraintKeys c)
  | [], g, hwf, _ => ⟨g, rfl, hwf, fun i => by simp⟩
  | c :: rest, g, hwf, hin => by
    obtain ⟨g1, hpc, hwf1, hids1⟩ :=
      processConstraint_some hwf (hin c (List.mem_cons_self c rest))
    obtain ⟨g', hrec, hwf', hids'⟩ :=
      buildGraphAux_some rest g1 hwf1
        (fun x hx => hin x (List.mem_cons_of_mem c hx))
    refine ⟨g', ?_, hwf', fun i => ?_⟩
    · unfold buildGraphAux
      rw [hpc]
      dsimp only
      exact hrec
    · rw [hids' i, hids1 i]
      simp only [List.mem_cons]
      constructor
      · rintro ((h | h) | ⟨x, hx, hmem⟩)
        · exact Or.inl h
        · exact Or.inr ⟨c, Or.inl rfl, h⟩
        · exact Or.inr ⟨x, Or.inr hx, hmem⟩
      · rintro (h | ⟨x, (rfl | hx), hmem⟩)
        · exact Or.inl (Or.inl h)
        · exact Or.inl (Or.inr hmem)
        · exact Or.inr ⟨x, hx, hmem⟩

theorem buildGraphAux_none {signals : List String} :
    ∀ (data : Constraints) (g : UndirectedGraph), GraphWF signals g →
    (∃ c ∈ data, ∃ s ∈ constraintKeys c, ¬ inRangeSig signals s) →
    buildGraphAux signals g data = none
  | [], _, _, h => by
    obtain ⟨c, hc, _⟩ := h
    exact absurd hc (List.not_mem_nil c)
  | c :: rest, g, hwf, h => by
    by_cases hc : ∀ s ∈ constraintKeys c, inRangeSig signals s
    · obtain ⟨g1, hpc, hwf1, _⟩ := processConstraint_some hwf hc
      have hbad : ∃ x ∈ rest, ∃ s ∈ constraintKeys x, ¬ inRangeSig signals s := by
        obtain ⟨x, hx, s, hs, hns⟩ := h
        rcases List.mem_cons.mp hx with rfl | hx
        · exact absurd (hc s hs) hns
        · exact ⟨x, hx, s, hs, hns⟩
      unfold buildGraphAux
      rw [hpc]
      dsimp only
      exact buildGraphAux_none rest g1 hwf1 hbad
    · push_neg at hc
      unfold buildGraphAux
      rw [processConstraint_none hwf hc]

theorem empty_wf (signals : List String) : GraphWF signals UndirectedGraph.empty := by
  refine ⟨?_, ?_, ?_, ?_, ?_, ?_⟩ <;>
    simp [UndirectedGraph.empty, UndirectedGraph.nodeIds]

theorem buildGraph_some_of_inRange {data : Constraints} {signals : List String}
    (h : ∀ c ∈ data, ∀ s ∈ constraintKeys c, inRangeSig signals s) :
    ∃ g, buildGraph data signals = some g ∧ GraphWF signals g ∧
      (∀ i, i ∈ g.nodeIds ↔ ∃ c ∈ data, i ∈ constraintKeys c) := by
  obtain ⟨g, hb, hwf, hids⟩ :=
    buildGraphAux_some data UndirectedGraph.empty (empty_wf signals) h
  refine ⟨g, hb, hwf, fun i => ?_⟩
  rw [hids i]
  simp [UndirectedGraph.empty, UndirectedGraph.nodeIds]

theorem buildGraph_inRange_of_some {data : Constraints} {signals : List String}
    {g : UndirectedGraph} (h : buildGraph data signals = some g) :
    ∀ c ∈ data, ∀ s ∈ constraintKeys c, inRangeSig signals s := by
  by_contra hbad
  push_neg at hbad
  rw [show buildGraph data signals =
      buildGraphAux signals UndirectedGraph.empty data from rfl,
    buildGraphAux_none data UndirectedGraph.empty (empty_wf signals) hbad] at h
  exact Option.noConfusion h

theorem buildGraph_wf {data : Constraints} {signals : List String}
    {g : UndirectedGraph} (h : buildGraph data signals = some g) :
    GraphWF signals g := by
  obtain ⟨g', hb, hwf, _⟩ :=
    buildGraph_some_of_inRange (buildGraph_inRange_of_some h)
  rw [h] at hb
  exact Option.some.inj hb ▸ hwf

theorem buildGraph_nodeIds {data : Constraints} {signals : List String}
    {g : UndirectedGraph} (h : buildGraph data signals = some g) :
    ∀ i, i ∈ g.nodeIds ↔ ∃ c ∈ data, i ∈ constraintKeys c := by
  obtain ⟨g', hb, _, hids⟩ :=
    buildGraph_some_of_inRange (buildGraph_inRange_of_some h)
  rw [h] at hb
  exact Option.some.inj hb ▸ hids

/-! ### Claim C1 -/

/-- Claim C1, counterexample: a constraint referencing signal 1 with a
one-entry name table makes `buildGraph` hit `signals[1]` out of range and
abort (panic, modelled `none`); no graph with a placeholder-named node is
returned. -/
theorem claim_C1_counterexample :
    buildGraph [(([1], [], []) : Constraint)] ["1"] = none := by
  decide

/-- Claim C1, amended: the build completes exactly when every referenced
signal index is a valid index into the name table; an out-of-range index
aborts the whole build with an index-out-of-range panic, and a completed
build labels every node with the table entry at its index (never a
placeholder). -/
theorem claim_C1_amended (data : Constraints) (signals : List String) :
    ((∃ g, buildGraph data signals = some g) ↔
      ∀ c ∈ data, ∀ s ∈ constraintKeys c, inRangeSig signals s) ∧
    (∀ g, buildGraph data signals = some g →
      ∀ n ∈ g.nodes, nameAt signals n.IDVal = some n.Name) := by
  constructor
  · constructor
    · rintro ⟨g, hg⟩
      exact buildGraph_inRange_of_some hg
    · intro h
      obtain ⟨g, hg, _, _⟩ := buildGraph_some_of_inRange h
      exact ⟨g, hg⟩
  · intro g hg n hn
    exact (buildGraph_wf hg).names n hn

/-- Witness for C1: a fully in-range dataset builds successfully. -/
theorem claim_C1_witness :
    ∃ g, buildGraph [(([1], [2], []) : Constraint)] ["one", "a", "b"] = some g :=
  (claim_C1_amended [(([1], [2], []) : Constraint)] ["one", "a", "b"]).1.mpr
    (by decide)

/-! ### Claim C3 -/

/-- Claim C3: every graph the builder returns is simple — no self-loops,
no duplicate edge entries, no two entries for the same unordered pair —
and re-inserting an edge that already exists returns the graph unchanged
(no duplicate, no error). -/
theorem claim_C3_simple_graph (data : Constraints) (signals : List String)
    (g : UndirectedGraph) (h : buildGraph data signals = some g) :
    (∀ e ∈ g.edges, e.1 ≠ e.2) ∧
    g.edges.Nodup ∧
    (∀ e₁ ∈ g.edges, ∀ e₂ ∈ g.edges,
      (e₁.1 = e₂.1 ∧ e₁.2 = e₂.2) ∨ (e₁.1 = e₂.2 ∧ e₁.2 = e₂.1) → e₁ = e₂) ∧
    (∀ a b : Int, UndirectedGraph.pairOf a b ∈ g.edges →
      g.setEdge a b = some g) := by
  have hwf := buildGraph_wf h
  refine ⟨?_, hwf.nodupEdges, ?_, ?_⟩
  · intro e he
    exact ne_of_lt (hwf.normEdges e he)
  · intro e₁ h₁ e₂ h₂ hcase
    rcases hcase with ⟨ha, hb⟩ | ⟨ha, hb⟩
    · calc e₁ = (e₁.1, e₁.2) := rfl
        _ = (e₂.1, e₂.2) := by rw [ha, hb]
        _ = e₂ := rfl
    · have l₁ := hwf.normEdges e₁ h₁
      have l₂ := hwf.normEdges e₂ h₂
      omega
  · intro a b hmem
    have hab : a ≠ b := by
      intro hcon
      have := hwf.normEdges _ hmem
      rcases pairOf_cases a b with hp | hp <;> rw [hp] at this <;> omega
    unfold UndirectedGraph.setEdge
    rw [if_neg hab, if_pos hmem]

/-- Witness for C3: re-inserting the existing edge (1,2) of a built graph
leaves it unchanged. -/
theorem claim_C3_witness :
    (UndirectedGraph.mk [⟨1, "a"⟩, ⟨2, "b"⟩, ⟨3, "c"⟩]
        [(1, 2), (2, 3)]).setEdge 1 2 =
      some (UndirectedGraph.mk [⟨1, "a"⟩, ⟨2, "b"⟩, ⟨3, "c"⟩]
        [(1, 2), (2, 3)]) :=
  (claim_C3_simple_graph [(([1, 2], [], []) : Constraint), ([2, 3], [], [])]
    ["one", "a", "b", "c"] _ (by decide)).2.2.2 1 2 (by decide)

/-! ### Claim C4 -/

/-- Claim C4: the node set of a built graph is exactly the set of signal
indices referenced by at least one linear expression of at least one
constraint — each referenced index is exactly one node (distinct ids),
and no other node exists. -/
theorem claim_C4_nodes_exact (data : Constraints) (signals : List String)
    (g : UndirectedGraph) (h : buildGraph data signals = some g) :
    g.nodeIds.Nodup ∧
    (∀ i, i ∈ g.nodeIds ↔ ∃ c ∈ data, i ∈ constraintKeys c) :=
  ⟨(buildGraph_wf h).nodupIds, buildGraph_nodeIds h⟩

/-- Witness for C4: in the two-constraint example the referenced signal 2
is a node and the unreferenced signal 5 is not. -/
theorem claim_C4_witness :
    (2 ∈ (UndirectedGraph.mk [⟨1, "a"⟩, ⟨2, "b"⟩, ⟨3, "c"⟩]
        [(1, 2), (2, 3)]).nodeIds ↔
      ∃ c ∈ [(([1, 2], [], []) : Constraint), ([2, 3], [], [])],
        2 ∈ constraintKeys c) :=
  (claim_C4_nodes_exact [(([1, 2], [], []) : Constraint), ([2, 3], [], [])]
    ["one", "a", "b", "c"] _ (by decide)).2 2

/-! ### Claim C5 -/

theorem foldl_filter_map_names (p : NamedNode → Prop) [DecidablePred p] :
    ∀ (l : List NamedNode) (acc : List String),
      l.foldl (fun acc n => if p n then acc ++ [n.Name] else acc) acc =
        acc ++ (l.filter (fun n => decide (p n))).map (·.Name)
  | [], acc => by simp
  | n :: l, acc => by
    by_cases hp : p n
    · rw [List.foldl_cons, if_pos hp, foldl_filter_map_names p l,
        List.filter_cons]
      simp [hp]
    · rw [List.foldl_cons, if_neg hp, foldl_filter_map_names p l,
        List.filter_cons]
      simp [hp]

theorem neighbors_fn_some {id : Int} {e : Int × Int} {x : Int}
    (h : (if e.1 = id then some e.2
          else if e.2 = id then some e.1 else none) = some x) :
    e = (id, x) ∨ e = (x, id) := by
  by_cases h1 : e.1 = id
  · rw [if_pos h1] at h
    left
    have := Option.some.inj h
    calc e = (e.1, e.2) := rfl
      _ = (id, x) := by rw [h1, this]
  · rw [if_neg h1] at h
    by_cases h2 : e.2 = id
    · rw [if_pos h2] at h
      right
      have := Option.some.inj h
      calc e = (e.1, e.2) := rfl
        _ = (x, id) := by rw [h2, this]
    · rw [if_neg h2] at h
      exact Option.noConfusion h

theorem neighborsAux_nodup (id : Int) :
    ∀ (l : List (Int × Int)), l.Nodup → (∀ e ∈ l, e.1 < e.2) →
      (l.filterMap (fun e => if e.1 = id then some e.2
        else if e.2 = id then some e.1 else none)).Nodup
  | [], _, _ => List.nodup_nil
  | e :: l, hnd, hnorm => by
    rw [List.nodup_cons] at hnd
    have ih := neighborsAux_nodup id l hnd.2
      (fun x hx => hnorm x (List.mem_cons_of_mem e hx))
    rw [List.filterMap_cons]
    cases hfe : (if e.1 = id then some e.2
        else if e.2 = id then some e.1 else none) with
    | none => exact ih
    | some x =>
      rw [List.nodup_cons]
      refine ⟨?_, ih⟩
      intro hx
      obtain ⟨e', he', hfe'⟩ := List.mem_filterMap.mp hx
      have hc := neighbors_fn_some hfe
      have hc' := neighbors_fn_some hfe'
      have hne : e ∈ l → False := hnd.1
      have hn1 := hnorm e (List.mem_cons_self e l)
      have hn2 := hnorm e' (List.mem_cons_of_mem e he')
      rcases hc with rfl | rfl <;> rcases hc' with he'' | he''
      · exact hne (he'' ▸ he')
      · rw [he''] at hn2
        simp only at hn1 hn2
        omega
      · rw [he''] at hn2
        simp only at hn1 hn2
        omega
      · exact hne (he'' ▸ he')

theorem neighbors_nodup {g : UndirectedGraph} (hnd : g.edges.Nodup)
    (hnorm : ∀ e ∈ g.edges, e.1 < e.2) (id : Int) :
    (g.neighbors id).Nodup :=
  neighborsAux_nodup id g.edges hnd hnorm

/-- Claim C5: the underconstraint check reports exactly the names of the
nodes whose neighbour count is at most 1 — every node is checked, with no
special case for node 0 or declared inputs — and in a built graph the
neighbour list of any id is duplicate-free, so its length is the count of
distinct neighbours (the node degree). -/
theorem claim_C5_underconstrained (data : Constraints) (signals : List String)
    (g : UndirectedGraph) (h : buildGraph data signals = some g) :
    findUnderconstrainedSignals g =
      (g.nodes.filter (fun n => (g.neighbors n.IDVal).length ≤ 1)).map (·.Name) ∧
    (∀ id : Int, (g.neighbors id).Nodup) := by
  have hwf := buildGraph_wf h
  constructor
  · unfold findUnderconstrainedSignals
    rw [foldl_filter_map_names (fun n => (g.neighbors n.IDVal).length ≤ 1)
      g.nodes []]
    rw [List.nil_append]
  · exact fun id => neighbors_nodup hwf.nodupEdges hwf.normEdges id

/-- Witness for C5: the report of the two-constraint example equals the
degree-filtered name list. -/
theorem claim_C5_witness :
    findUnderconstrainedSignals
        (UndirectedGraph.mk [⟨1, "a"⟩, ⟨2, "b"⟩, ⟨3, "c"⟩] [(1, 2), (2, 3)]) =
      ((UndirectedGraph.mk [⟨1, "a"⟩, ⟨2, "b"⟩, ⟨3, "c"⟩]
          [(1, 2), (2, 3)]).nodes.filter
        (fun n => ((UndirectedGraph.mk [⟨1, "a"⟩, ⟨2, "b"⟩, ⟨3, "c"⟩]
          [(1, 2), (2, 3)]).neighbors n.IDVal).length ≤ 1)).map (·.Name) :=
  (claim_C5_underconstrained
    [(([1, 2], [], []) : Constraint), ([2, 3], [], [])]
    ["one", "a", "b", "c"] _ (by decide)).1

/-! ### Claim C7 -/

/-- Claim C7: from the constraint list with one constraint on signals
1 and 2 and one on signals 2 and 3, the builder returns exactly the nodes
1, 2, 3 and exactly the edges (1,2) and (2,3); signals 1 and 3 have
degree 1 and are reported underconstrained (by their names), signal 2 has
degree 2 and is not. -/
theorem claim_C7_example :
    buildGraph [(([1, 2], [], []) : Constraint), ([2, 3], [], [])]
        ["one", "a", "b", "c"] =
      some (UndirectedGraph.mk [⟨1, "a"⟩, ⟨2, "b"⟩, ⟨3, "c"⟩]
        [(1, 2), (2, 3)]) ∧
    (UndirectedGraph.mk [⟨1, "a"⟩, ⟨2, "b"⟩, ⟨3, "c"⟩]
        [(1, 2), (2, 3)]).nodeIds = [1, 2, 3] ∧
    ((UndirectedGraph.mk [⟨1, "a"⟩, ⟨2, "b"⟩, ⟨3, "c"⟩]
        [(1, 2), (2, 3)]).neighbors 1).length = 1 ∧
    ((UndirectedGraph.mk [⟨1, "a"⟩, ⟨2, "b"⟩, ⟨3, "c"⟩]
        [(1, 2), (2, 3)]).neighbors 2).length = 2 ∧
    ((UndirectedGraph.mk [⟨1, "a"⟩, ⟨2, "b"⟩, ⟨3, "c"⟩]
        [(1, 2), (2, 3)]).neighbors 3).length = 1 ∧
    findUnderconstrainedSignals
        (UndirectedGraph.mk [⟨1, "a"⟩, ⟨2, "b"⟩, ⟨3, "c"⟩]
          [(1, 2), (2, 3)]) = ["a", "c"] := by
  refine ⟨by decide, by decide, by decide, by decide, by decide, by decide⟩

/-! ### Supporting lemmas: component partitioning -/

theorem flatten_map_singleton {α β : Type} (f : α → β) :
    ∀ (l : List α), (l.map (fun x => [f x])).flatten = l.map f
  | [] => rfl
  | x :: l => by
    rw [List.map_cons, List.flatten_cons, List.map_cons,
      flatten_map_singleton f l]
    rfl

theorem mergeStep_flatten_perm (comps : List (List Int)) (e : Int × Int) :
    (mergeStep comps e).flatten.Perm comps.flatten := by
  unfold mergeStep
  by_cases hemp :
      (comps.filter (fun c => decide (e.1 ∈ c ∨ e.2 ∈ c))).isEmpty = true
  · rw [if_pos hemp]
  · rw [if_neg hemp, List.flatten_cons, ← List.flatten_append]
    have hp := List.filter_append_perm (fun c => decide (e.1 ∈ c ∨ e.2 ∈ c)) comps
    have hrw : (fun c => !decide (e.1 ∈ c ∨ e.2 ∈ c)) =
        (fun c : List Int => decide (¬(e.1 ∈ c ∨ e.2 ∈ c))) := by
      funext c
      rw [decide_not]
    rw [hrw] at hp
    exact hp.flatten

theorem foldl_mergeStep_flatten_perm :
    ∀ (E : List (Int × Int)) (comps : List (List Int)),
      (E.foldl mergeStep comps).flatten.Perm comps.flatten
  | [], comps => List.Perm.refl _
  | e :: E, comps => by
    rw [List.foldl_cons]
    exact (foldl_mergeStep_flatten_perm E (mergeStep comps e)).trans
      (mergeStep_flatten_perm comps e)

theorem ConnectedComponents_flatten_perm (g : UndirectedGraph) :
    (ConnectedComponents g).flatten.Perm g.nodeIds := by
  unfold ConnectedComponents
  have := foldl_mergeStep_flatten_perm g.edges
    (g.nodes.map (fun n => [n.IDVal]))
  rw [flatten_map_singleton (fun n : NamedNode => n.IDVal) g.nodes] at this
  exact this

theorem removeNode_nodes_mem {g : UndirectedGraph} {id : Int} {n : NamedNode} :
    n ∈ (g.removeNode id).nodes ↔ n ∈ g.nodes ∧ n.IDVal ≠ id := by
  unfold UndirectedGraph.removeNode
  simp [List.mem_filter]

theorem removeNode_edges_mem {g : UndirectedGraph} {id : Int} {e : Int × Int} :
    e ∈ (g.removeNode id).edges ↔ e ∈ g.edges ∧ e.1 ≠ id ∧ e.2 ≠ id := by
  unfold UndirectedGraph.removeNode
  simp [List.mem_filter]

theorem removeNode_wf {signals : List String} {g : UndirectedGraph} {id : Int}
    (hwf : GraphWF signals g) : GraphWF signals (g.removeNode id) := by
  have hnodes : (g.removeNode id).nodes.Sublist g.nodes := List.filter_sublist _
  have hedges : (g.removeNode id).edges.Sublist g.edges := List.filter_sublist _
  refine ⟨?_, ?_, ?_, ?_, ?_, ?_⟩
  · have h0 : (List.map (fun n : NamedNode => n.IDVal) g.nodes).Nodup :=
      hwf.nodupIds
    show (List.map (fun n : NamedNode => n.IDVal)
      (g.removeNode id).nodes).Nodup
    exact (hnodes.map _).nodup h0
  · exact hedges.nodup hwf.nodupEdges
  · exact fun e he => hwf.normEdges e (hedges.mem he)
  · intro e he
    rw [removeNode_edges_mem] at he
    obtain ⟨n, hn, hid⟩ := List.mem_map.mp (hwf.edgeLeft e he.1)
    refine List.mem_map.mpr ⟨n, ?_, hid⟩
    rw [removeNode_nodes_mem]
    exact ⟨hn, by rw [hid]; exact he.2.1⟩
  · intro e he
    rw [removeNode_edges_mem] at he
    obtain ⟨n, hn, hid⟩ := List.mem_map.mp (hwf.edgeRight e he.1)
    refine List.mem_map.mpr ⟨n, ?_, hid⟩
    rw [removeNode_nodes_mem]
    exact ⟨hn, by rw [hid]; exact he.2.2⟩
  · exact fun n hn => hwf.names n (hnodes.mem hn)

theorem mem_block_unique :
    ∀ {comps : List (List Int)}, comps.flatten.Nodup →
    ∀ {c₁ c₂ : List Int}, c₁ ∈ comps → c₂ ∈ comps →
    ∀ {x : Int}, x ∈ c₁ → x ∈ c₂ → c₁ = c₂ := by
  intro comps
  induction comps with
  | nil =>
    intro _ c₁ _ h₁
    exact absurd h₁ (List.not_mem_nil c₁)
  | cons c rest ih =>
    intro hnd c₁ c₂ h₁ h₂ x hx₁ hx₂
    rw [List.flatten_cons, List.nodup_append] at hnd
    obtain ⟨-, hrest, hdisj⟩ := hnd
    rcases List.mem_cons.mp h₁ with hc1 | h₁
    · rcases List.mem_cons.mp h₂ with hc2 | h₂
      · rw [hc1, hc2]
      · rw [hc1] at hx₁
        exact absurd (List.mem_flatten.mpr ⟨c₂, h₂, hx₂⟩) (hdisj hx₁)
    · rcases List.mem_cons.mp h₂ with hc2 | h₂
      · rw [hc2] at hx₂
        exact absurd (List.mem_flatten.mpr ⟨c₁, h₁, hx₁⟩) (hdisj hx₂)
      · exact ih hrest h₁ h₂ hx₁ hx₂

theorem mergeStep_eq_of_touched {comps : List (List Int)} {e : Int × Int}
    {c₀ : List Int} (hc₀ : c₀ ∈ comps) (hp : e.1 ∈ c₀ ∨ e.2 ∈ c₀) :
    mergeStep comps e =
      (comps.filter (fun c => decide (e.1 ∈ c ∨ e.2 ∈ c))).flatten ::
        comps.filter (fun c => decide (¬(e.1 ∈ c ∨ e.2 ∈ c))) := by
  unfold mergeStep
  rw [if_neg]
  intro hemp
  rw [List.isEmpty_iff, List.eq_nil_iff_forall_not_mem] at hemp
  exact hemp c₀ (List.mem_filter.mpr ⟨hc₀, decide_eq_true hp⟩)

theorem mergeStep_inv {V : List Int} {procd : List (Int × Int)}
    {comps : List (List Int)} {e : Int × Int}
    (hjoin : comps.flatten.Perm V) (he1 : e.1 ∈ V) (he2 : e.2 ∈ V)
    (hconn : ∀ c ∈ comps, ∀ a ∈ c, ∀ b ∈ c,
      Relation.ReflTransGen (fun x y => (x, y) ∈ procd ∨ (y, x) ∈ procd) a b)
    (hedges : ∀ e' ∈ procd, SameComp comps e'.1 e'.2) :
    (∀ c ∈ mergeStep comps e, ∀ a ∈ c, ∀ b ∈ c,
      Relation.ReflTransGen
        (fun x y => (x, y) ∈ procd ++ [e] ∨ (y, x) ∈ procd ++ [e]) a b) ∧
    (∀ e' ∈ procd ++ [e], SameComp (mergeStep comps e) e'.1 e'.2) := by
  obtain ⟨c₀, hc₀, he₀⟩ :=
    List.mem_flatten.mp (hjoin.mem_iff.mpr he1)
  have hms := mergeStep_eq_of_touched hc₀ (Or.inl he₀)
  have hsymm : Symmetric
      (fun x y => (x, y) ∈ procd ++ [e] ∨ (y, x) ∈ procd ++ [e]) := by
    intro x y hxy
    exact hxy.symm
  have hmono : ∀ a b : Int,
      Relation.ReflTransGen (fun x y => (x, y) ∈ procd ∨ (y, x) ∈ procd) a b →
      Relation.ReflTransGen
        (fun x y => (x, y) ∈ procd ++ [e] ∨ (y, x) ∈ procd ++ [e]) a b := by
    intro a b h
    refine Relation.ReflTransGen.mono ?_ h
    intro x y hxy
    rcases hxy with h | h
    · exact Or.inl (List.mem_append.mpr (Or.inl h))
    · exact Or.inr (List.mem_append.mpr (Or.inl h))
  have hestep : (e.1, e.2) ∈ procd ++ [e] :=
    List.mem_append.mpr (Or.inr (List.mem_singleton.mpr rfl))
  have hto_e1 : ∀ a ∈ (comps.filter
      (fun c => decide (e.1 ∈ c ∨ e.2 ∈ c))).flatten,
      Relation.ReflTransGen
        (fun x y => (x, y) ∈ procd ++ [e] ∨ (y, x) ∈ procd ++ [e]) a e.1 := by
    intro a ha
    obtain ⟨c, hc, hac⟩ := List.mem_flatten.mp ha
    obtain ⟨hcm, hpc⟩ := List.mem_filter.mp hc
    rcases of_decide_eq_true hpc with h1 | h2
    · exact hmono a e.1 (hconn c hcm a hac e.1 h1)
    · exact (hmono a e.2 (hconn c hcm a hac e.2 h2)).tail (Or.inr hestep)
  constructor
  · intro c hcm a hac b hbc
    rw [hms] at hcm
    rcases List.mem_cons.mp hcm with rfl | hcm
    · exact (hto_e1 a hac).trans
        ((Relation.ReflTransGen.symmetric hsymm) (hto_e1 b hbc))
    · have hcm' := (List.mem_filter.mp hcm).1
      exact hmono a b (hconn c hcm' a hac b hbc)
  · intro e' he'
    rcases List.mem_append.mp he' with hold | hnew
    · obtain ⟨c, hc, h1, h2⟩ := hedges e' hold
      by_cases hpc : e.1 ∈ c ∨ e.2 ∈ c
      · refine ⟨(comps.filter (fun c => decide (e.1 ∈ c ∨ e.2 ∈ c))).flatten,
          ?_, ?_, ?_⟩
        · rw [hms]
          exact List.mem_cons_self _ _
        · exact List.mem_flatten.mpr
            ⟨c, List.mem_filter.mpr ⟨hc, decide_eq_true hpc⟩, h1⟩
        · exact List.mem_flatten.mpr
            ⟨c, List.mem_filter.mpr ⟨hc, decide_eq_true hpc⟩, h2⟩
      · refine ⟨c, ?_, h1, h2⟩
        rw [hms]
        exact List.mem_cons_of_mem _
          (List.mem_filter.mpr ⟨hc, decide_eq_true hpc⟩)
    · rw [List.mem_singleton.mp hnew]
      obtain ⟨c₂, hc₂, he₂⟩ := List.mem_flatten.mp (hjoin.mem_iff.mpr he2)
      refine ⟨(comps.filter (fun c => decide (e.1 ∈ c ∨ e.2 ∈ c))).flatten,
        ?_, ?_, ?_⟩
      · rw [hms]
        exact List.mem_cons_self _ _
      · exact List.mem_flatten.mpr
          ⟨c₀, List.mem_filter.mpr ⟨hc₀, decide_eq_true (Or.inl he₀)⟩, he₀⟩
      · exact List.mem_flatten.mpr
          ⟨c₂, List.mem_filter.mpr ⟨hc₂, decide_eq_true (Or.inr he₂)⟩, he₂⟩

theorem sameComp_trans {comps : List (List Int)} (hnd : comps.flatten.Nodup)
    {a x y : Int} (h₁ : SameComp comps a x) (h₂ : SameComp comps x y) :
    SameComp comps a y := by
  obtain ⟨c₁, hc₁, ha, hx₁⟩ := h₁
  obtain ⟨c₂, hc₂, hx₂, hy⟩ := h₂
  have := mem_block_unique hnd hc₁ hc₂ hx₁ hx₂
  exact ⟨c₁, hc₁, ha, this ▸ hy⟩

theorem sameComp_symm {comps : List (List Int)} {a b : Int}
    (h : SameComp comps a b) : SameComp comps b a := by
  obtain ⟨c, hc, ha, hb⟩ := h
  exact ⟨c, hc, hb, ha⟩

theorem foldl_mergeStep_inv {V : List Int} :
    ∀ (E : List (Int × Int)) (procd : List (Int × Int))
      (comps : List (List Int)),
    comps.flatten.Perm V →
    (∀ e ∈ E, e.1 ∈ V ∧ e.2 ∈ V) →
    (∀ c ∈ comps, ∀ a ∈ c, ∀ b ∈ c,
      Relation.ReflTransGen (fun x y => (x, y) ∈ procd ∨ (y, x) ∈ procd) a b) →
    (∀ e' ∈ procd, SameComp comps e'.1 e'.2) →
    (∀ c ∈ E.foldl mergeStep comps, ∀ a ∈ c, ∀ b ∈ c,
      Relation.ReflTransGen
        (fun x y => (x, y) ∈ procd ++ E ∨ (y, x) ∈ procd ++ E) a b) ∧
    (∀ e' ∈ procd ++ E, SameComp (E.foldl mergeStep comps) e'.1 e'.2)
  | [], procd, comps, hjoin, _, hconn, hedges => by
    rw [List.append_nil]
    exact ⟨hconn, hedges⟩
  | e :: E, procd, comps, hjoin, hE, hconn, hedges => by
    have hmem := hE e (List.mem_cons_self e E)
    have hstep := mergeStep_inv hjoin hmem.1 hmem.2 hconn hedges
    have hjoin' : (mergeStep comps e).flatten.Perm V :=
      (mergeStep_flatten_perm comps e).trans hjoin
    have hrec := foldl_mergeStep_inv E (procd ++ [e]) (mergeStep comps e)
      hjoin' (fun x hx => hE x (List.mem_cons_of_mem e hx)) hstep.1 hstep.2
    have hassoc : procd ++ [e] ++ E = procd ++ e :: E := by
      rw [List.append_assoc, List.singleton_append]
    rw [hassoc] at hrec
    rw [List.foldl_cons]
    exact hrec

theorem node_isSome_iff {g : UndirectedGraph} {i : Int} :
    (g.node i).isSome = true ↔ i ∈ g.nodeIds := by
  rw [Option.isSome_iff_ne_none, ne_eq, node_eq_none_iff, not_not]

theorem ConnectedComponents_conn (g : UndirectedGraph)
    (hend : ∀ e ∈ g.edges, e.1 ∈ g.nodeIds ∧ e.2 ∈ g.nodeIds) :
    (∀ c ∈ ConnectedComponents g, ∀ a ∈ c, ∀ b ∈ c, Reach g a b) ∧
    (∀ e ∈ g.edges, SameComp (ConnectedComponents g) e.1 e.2) := by
  have hinit_join :
      (g.nodes.map (fun n => [n.IDVal])).flatten.Perm g.nodeIds := by
    rw [flatten_map_singleton (fun n : NamedNode => n.IDVal) g.nodes]
    exact List.Perm.refl _
  have hinit_conn : ∀ c ∈ g.nodes.map (fun n => [n.IDVal]), ∀ a ∈ c, ∀ b ∈ c,
      Relation.ReflTransGen
        (fun x y => (x, y) ∈ ([] : List (Int × Int)) ∨
          (y, x) ∈ ([] : List (Int × Int))) a b := by
    intro c hc a ha b hb
    obtain ⟨n, _, rfl⟩ := List.mem_map.mp hc
    rw [List.mem_singleton.mp ha, List.mem_singleton.mp hb]
  have hinit_edges : ∀ e' ∈ ([] : List (Int × Int)),
      SameComp (g.nodes.map (fun n => [n.IDVal])) e'.1 e'.2 := by
    intro e' he'
    exact absurd he' (List.not_mem_nil e')
  have h := foldl_mergeStep_inv g.edges [] (g.nodes.map (fun n => [n.IDVal]))
    hinit_join hend hinit_conn hinit_edges
  rw [List.nil_append] at h
  exact h

theorem sameComp_of_reach {g : UndirectedGraph}
    (hnd : (ConnectedComponents g).flatten.Nodup)
    (hedges : ∀ e ∈ g.edges, SameComp (ConnectedComponents g) e.1 e.2)
    {a b : Int} (hr : Reach g a b) (ha : a ∈ g.nodeIds) :
    SameComp (ConnectedComponents g) a b := by
  induction hr with
  | refl =>
    have hmem : a ∈ (ConnectedComponents g).flatten :=
      (ConnectedComponents_flatten_perm g).mem_iff.mpr ha
    obtain ⟨c, hc, hac⟩ := List.mem_flatten.mp hmem
    exact ⟨c, hc, hac, hac⟩
  | tail hxy hadj ih =>
    rcases hadj with h | h
    · exact sameComp_trans hnd ih (hedges _ h)
    · exact sameComp_trans hnd ih (sameComp_symm (hedges _ h))

/-! ### Claim C6 -/

/-- Claim C6: the connectivity check works on a copy of the built graph
from which node 0 and all its incident edges are removed; its result
partitions the remaining node ids (each occurs in exactly one component,
by the permutation with the duplicate-free remaining id list), two ids
share a component exactly when they are connected in the
node-0-free graph, a graph left with no nodes yields zero components
(no error), and every id in the result still resolves in the untouched
original graph. -/
theorem claim_C6_connectivity (data : Constraints) (signals : List String)
    (g : UndirectedGraph) (h : buildGraph data signals = some g) :
    (∀ n : NamedNode, n ∈ (g.removeNode 0).nodes ↔
      n ∈ g.nodes ∧ n.IDVal ≠ 0) ∧
    (∀ e : Int × Int, e ∈ (g.removeNode 0).edges ↔
      e ∈ g.edges ∧ e.1 ≠ 0 ∧ e.2 ≠ 0) ∧
    (analyzeGraphSubgraphs g).flatten.Perm (g.removeNode 0).nodeIds ∧
    ((g.removeNode 0).nodes = [] → analyzeGraphSubgraphs g = []) ∧
    (∀ a b : Int, SameComp (analyzeGraphSubgraphs g) a b ↔
      (Reach (g.removeNode 0) a b ∧ a ∈ (g.removeNode 0).nodeIds ∧
        b ∈ (g.removeNode 0).nodeIds)) ∧
    (∀ i ∈ (analyzeGraphSubgraphs g).flatten, (g.node i).isSome = true) := by
  have hwf := buildGraph_wf h
  have hwfr : GraphWF signals (g.removeNode 0) := removeNode_wf hwf
  have hend : ∀ e ∈ (g.removeNode 0).edges,
      e.1 ∈ (g.removeNode 0).nodeIds ∧ e.2 ∈ (g.removeNode 0).nodeIds :=
    fun e he => ⟨hwfr.edgeLeft e he, hwfr.edgeRight e he⟩
  have hperm : (ConnectedComponents (g.removeNode 0)).flatten.Perm
      (g.removeNode 0).nodeIds :=
    ConnectedComponents_flatten_perm _
  have hnd : (ConnectedComponents (g.removeNode 0)).flatten.Nodup :=
    hperm.nodup_iff.mpr hwfr.nodupIds
  have hconn := ConnectedComponents_conn (g.removeNode 0) hend
  unfold analyzeGraphSubgraphs
  refine ⟨fun n => removeNode_nodes_mem, fun e => removeNode_edges_mem,
    hperm, ?_, ?_, ?_⟩
  · intro hnil
    have hidsnil : (g.removeNode 0).nodeIds = [] := by
      unfold UndirectedGraph.nodeIds
      rw [hnil]
      rfl
    have hednil : (g.removeNode 0).edges = [] := by
      rw [List.eq_nil_iff_forall_not_mem]
      intro e he
      have hmem := hwfr.edgeLeft e he
      rw [hidsnil] at hmem
      exact List.not_mem_nil _ hmem
    unfold ConnectedComponents
    rw [hednil, hnil]
    rfl
  · intro a b
    constructor
    · intro hsc
      obtain ⟨c, hc, hac, hbc⟩ := hsc
      refine ⟨hconn.1 c hc a hac b hbc, ?_, ?_⟩
      · exact hperm.mem_iff.mp (List.mem_flatten.mpr ⟨c, hc, hac⟩)
      · exact hperm.mem_iff.mp (List.mem_flatten.mpr ⟨c, hc, hbc⟩)
    · rintro ⟨hr, ha, -⟩
      exact sameComp_of_reach hnd hconn.2 hr ha
  · intro i hi
    rw [node_isSome_iff]
    have hmem : i ∈ (g.removeNode 0).nodeIds := hperm.mem_iff.mp hi
    obtain ⟨n, hn, rfl⟩ := List.mem_map.mp hmem
    exact List.mem_map.mpr ⟨n, (removeNode_nodes_mem.mp hn).1, rfl⟩

/-- Witness for C6: a build whose only signal is the constant 0 leaves no
nodes after removal and yields zero components. -/
theorem claim_C6_witness :
    analyzeGraphSubgraphs (UndirectedGraph.mk [⟨0, "one"⟩] []) = [] :=
  (claim_C6_connectivity [(([0], [], []) : Constraint)] ["one"] _
    (by decide)).2.2.2.1 (by decide)

/-! ### Claims C2 and C9: the symbol-table loader -/

theorem extractNames_panic {acc : List String} {r : List String}
    {rest : List (List String)} (h : r.length < 4) :
    extractNames acc (r :: rest) = SymResult.panic := by
  unfold extractNames
  rw [List.get?_eq_none.mpr (by omega)]

theorem extractNames_ok :
    ∀ (records : List (List String)) (acc : List String),
    (∀ r ∈ records, 4 ≤ r.length) →
    extractNames acc records =
      SymResult.ok (acc ++ records.map (fun r => r.getD 3 ""))
  | [], acc, _ => by simp [extractNames]
  | r :: rest, acc, h => by
    have h4 : 4 ≤ r.length := h r (List.mem_cons_self r rest)
    have hv : r.get? 3 = some (r.getD 3 "") := by
      rw [List.getD_eq_getElem?_getD, ← List.get?_eq_getElem?]
      cases hg : r.get? 3 with
      | none =>
        rw [List.get?_eq_none] at hg
        omega
      | some v => rfl
    unfold extractNames
    rw [hv]
    dsimp only
    rw [extractNames_ok rest (acc ++ [r.getD 3 ""])
      (fun x hx => h x (List.mem_cons_of_mem r hx))]
    simp

/-- Claim C2, counterexample: a symbol table whose single record has only
three fields passes the csv reader's field-count check, so the parse does
not return an error — instead `record[3]` panics (index out of range),
crashing the process. -/
theorem claim_C2_counterexample :
    LoadFromSym [["x", "y", "z"]] = SymResult.panic ∧
    LoadFromSym [["x", "y", "z"]] ≠ SymResult.err := by
  decide

/-- Claim C2, amended: rows with inconsistent field counts make the csv
reader return an error without crashing, but records that uniformly lack
a fourth field are not caught: the extraction loop panics with an index
out of range, which crashes the process (there is no recover). -/
theorem claim_C2_amended (records : List (List String)) :
    (csvConsistent records = false → LoadFromSym records = SymResult.err) ∧
    (csvConsistent records = true → (∃ r ∈ records, r.length < 4) →
      LoadFromSym records = SymResult.panic) := by
  constructor
  · intro h
    unfold LoadFromSym
    rw [if_neg]
    rw [h]
    exact Bool.false_ne_true
  · intro hcons hshort
    unfold LoadFromSym
    rw [if_pos hcons]
    cases records with
    | nil =>
      obtain ⟨r, hr, _⟩ := hshort
      exact absurd hr (List.not_mem_nil r)
    | cons r rest =>
      obtain ⟨x, hx, hxlen⟩ := hshort
      have hrlen : r.length < 4 := by
        rcases List.mem_cons.mp hx with rfl | hx
        · exact hxlen
        · unfold csvConsistent at hcons
          rw [List.all_eq_true] at hcons
          have := of_decide_eq_true (hcons x hx)
          omega
      exact extractNames_panic hrlen

/-- Witness for C2: inconsistent rows yield the reader's error; a
consistent three-field record panics. -/
theorem claim_C2_witness :
    LoadFromSym [["a", "b"], ["c"]] = SymResult.err ∧
    LoadFromSym [["a", "b", "c"]] = SymResult.panic :=
  ⟨(claim_C2_amended [["a", "b"], ["c"]]).1 (by decide),
   (claim_C2_amended [["a", "b", "c"]]).2 (by decide)
     ⟨["a", "b", "c"], by decide, by decide⟩⟩

/-- Claim C9: on a well-formed symbol table (tabular records, at least
four fields each) the parse succeeds; the name list starts with `"1"` at
index 0 regardless of the input, and its entry at index `i + 1` is the
fourth field of record `i`, in record order. -/
theorem claim_C9_sym_parse (records : List (List String))
    (hcons : csvConsistent records = true)
    (hlen : ∀ r ∈ records, 4 ≤ r.length) :
    LoadFromSym records =
      SymResult.ok ("1" :: records.map (fun r => r.getD 3 "")) ∧
    ("1" :: records.map (fun r => r.getD 3 "")).get? 0 = some "1" ∧
    (∀ i r, records.get? i = some r →
      ("1" :: records.map (fun r => r.getD 3 "")).get? (i + 1) = r.get? 3) := by
  refine ⟨?_, rfl, ?_⟩
  · unfold LoadFromSym
    rw [if_pos hcons, extractNames_ok records ["1"] hlen]
    rfl
  · intro i r hir
    have hrm : r ∈ records := List.get?_mem hir
    have h4 := hlen r hrm
    rw [List.get?_cons_succ, List.get?_eq_getElem?, List.getElem?_map,
      ← List.get?_eq_getElem?, hir]
    cases hg : r.get? 3 with
    | none =>
      rw [List.get?_eq_none] at hg
      omega
    | some v =>
      rw [Option.map_some']
      rw [List.getD_eq_getElem?_getD, ← List.get?_eq_getElem?, hg]
      rfl

/-- Witness for C9: one four-field record yields the names `"1"` then its
fourth field. -/
theorem claim_C9_witness :
    LoadFromSym [["a", "b", "c", "d"]] = SymResult.ok ["1", "d"] :=
  (claim_C9_sym_parse [["a", "b", "c", "d"]] (by decide) (by decide)).1

/-! ### Claim C8: key parsing in the constraints loader -/

theorem digit_not_special {c : Char} (h : isDecDigit c = true) :
    isGoSpace c = false ∧ c ≠ '\n' ∧ c ≠ '-' ∧ c ≠ '+' := by
  have hn : 0x30 ≤ c.toNat ∧ c.toNat ≤ 0x39 := by
    unfold isDecDigit at h
    rw [Bool.and_eq_true, decide_eq_true_eq, decide_eq_true_eq] at h
    exact h
  refine ⟨?_, ?_, ?_, ?_⟩
  · unfold isGoSpace
    rw [decide_eq_false_iff_not]
    omega
  · rintro rfl
    exact absurd h (by decide)
  · rintro rfl
    exact absurd h (by decide)
  · rintro rfl
    exact absurd h (by decide)

theorem not_newline_of_not_space {c : Char} (hsp : isGoSpace c = false) :
    c ≠ '\n' := by
  rintro rfl
  exact absurd hsp (by decide)

theorem scanInt64_digits {c : Char} {cs : List Char}
    (hdig : ∀ x ∈ c :: cs, isDecDigit x = true)
    (hmax : (digitsVal (c :: cs) : Int) ≤ int64Max) :
    scanInt64 (c :: cs) = some (digitsVal (c :: cs) : Int) := by
  have hc := hdig c (List.mem_cons_self c cs)
  obtain ⟨hs1, hs2, hs3, hs4⟩ := digit_not_special hc
  have hdrop : List.dropWhile
      (fun x => decide (isGoSpace x = true ∧ x ≠ '\n'))
      (c :: cs) = c :: cs := by
    rw [List.dropWhile_cons, if_neg]
    simp [hs1]
  have htake : List.takeWhile isDecDigit (c :: cs) = c :: cs :=
    List.takeWhile_eq_self_iff.mpr hdig
  have hmin : int64Min ≤ (digitsVal (c :: cs) : Int) := by
    have h0 := Int.natCast_nonneg (digitsVal (c :: cs))
    unfold int64Min
    omega
  unfold scanInt64
  simp only [hdrop, List.head?_cons, Option.some.injEq, hs2, hs3, hs4,
    if_false, or_self, htake, List.isEmpty_cons, Bool.false_eq_true, hmin,
    hmax, and_self, if_true]

theorem scanInt64_neg_digits {c : Char} {cs : List Char}
    (hdig : ∀ x ∈ c :: cs, isDecDigit x = true)
    (hmax : (digitsVal (c :: cs) : Int) ≤ 2 ^ 63) :
    scanInt64 ('-' :: c :: cs) = some (-(digitsVal (c :: cs) : Int)) := by
  have hdrop : List.dropWhile
      (fun x => decide (isGoSpace x = true ∧ x ≠ '\n'))
      ('-' :: c :: cs) = '-' :: c :: cs := by
    rw [List.dropWhile_cons, if_neg (by decide)]
  have htake : List.takeWhile isDecDigit (c :: cs) = c :: cs :=
    List.takeWhile_eq_self_iff.mpr hdig
  have h0 := Int.natCast_nonneg (digitsVal (c :: cs))
  have hrange : int64Min ≤ -(digitsVal (c :: cs) : Int) ∧
      -(digitsVal (c :: cs) : Int) ≤ int64Max := by
    unfold int64Min int64Max
    omega
  unfold scanInt64
  simp only [hdrop, List.head?_cons, Option.some.injEq, or_true, if_true,
    true_or, List.tail_cons, htake, List.isEmpty_cons, Bool.false_eq_true,
    if_false, hrange, and_self, reduceCtorEq]
  rw [if_neg]
  intro hcon
  exact absurd hcon (by decide)

theorem scanInt64_no_digit {c : Char} {cs : List Char}
    (hnd : ¬ isDecDigit c = true) (hsp : isGoSpace c = false)
    (h3 : c ≠ '-') (h4 : c ≠ '+') :
    scanInt64 (c :: cs) = none := by
  have h2 : c ≠ '\n' := not_newline_of_not_space hsp
  have hdrop : List.dropWhile
      (fun x => decide (isGoSpace x = true ∧ x ≠ '\n'))
      (c :: cs) = c :: cs := by
    rw [List.dropWhile_cons, if_neg]
    simp [hsp]
  have htake : List.takeWhile isDecDigit (c :: cs) = [] := by
    rw [List.takeWhile_cons, if_neg hnd]
  unfold scanInt64
  simp only [hdrop, List.head?_cons, Option.some.injEq, h2, h3, h4,
    if_false, or_self, htake, List.isEmpty_nil, if_true]

theorem scanInt64_overflow {c : Char} {cs : List Char}
    (hdig : ∀ x ∈ c :: cs, isDecDigit x = true)
    (hmax : int64Max < (digitsVal (c :: cs) : Int)) :
    scanInt64 (c :: cs) = none := by
  have hc := hdig c (List.mem_cons_self c cs)
  obtain ⟨hs1, hs2, hs3, hs4⟩ := digit_not_special hc
  have hdrop : List.dropWhile
      (fun x => decide (isGoSpace x = true ∧ x ≠ '\n'))
      (c :: cs) = c :: cs := by
    rw [List.dropWhile_cons, if_neg]
    simp [hs1]
  have htake : List.takeWhile isDecDigit (c :: cs) = c :: cs :=
    List.takeWhile_eq_self_iff.mpr hdig
  unfold scanInt64
  simp only [hdrop, List.head?_cons, Option.some.injEq, hs2, hs3, hs4,
    if_false, or_self, htake, List.isEmpty_cons, Bool.false_eq_true]
  rw [if_neg]
  intro hcon
  omega

theorem scanInt64_skip_space {c : Char} {cs : List Char}
    (hsp : isGoSpace c = true) (hnl : c ≠ '\n') :
    scanInt64 (c :: cs) = scanInt64 cs := by
  have hdrop : List.dropWhile
      (fun x => decide (isGoSpace x = true ∧ x ≠ '\n')) (c :: cs) =
      List.dropWhile (fun x => decide (isGoSpace x = true ∧ x ≠ '\n')) cs := by
    rw [List.dropWhile_cons, if_pos]
    simp [hsp, hnl]
  unfold scanInt64
  rw [hdrop]

theorem scanInt64_newline (cs : List Char) :
    scanInt64 ('\n' :: cs) = none := by
  have hdrop : List.dropWhile
      (fun x => decide (isGoSpace x = true ∧ x ≠ '\n')) ('\n' :: cs) =
      '\n' :: cs := by
    rw [List.dropWhile_cons,
      if_neg (by decide : ¬(decide (isGoSpace '\n' = true ∧
        ('\n' : Char) ≠ '\n') = true))]
  unfold scanInt64
  rw [hdrop,
    if_pos (show ('\n' :: cs).head? = some '\n' from rfl)]

/-- Claim C8, counterexample: the key `"-5"` does not parse as a
non-negative integer, yet `stringToInt` scans it as a signed decimal and
yields `-5`, not the claimed `0`. -/
theorem claim_C8_counterexample :
    stringToInt "-5" = -5 ∧ stringToInt "-5" ≠ 0 := by
  decide

/-- Claim C8, amended: `Sscanf`-style scanning is signed — after leading
runes of the `fmt` space table are skipped (a newline instead makes the
scan fail with 0), a key that is a run of decimal digits within `int64`
range yields its value, a key `-digits` yields the negated value (a
negative index, not 0), and a key with no leading decimal value after
the optional sign, or whose value overflows `int64`, yields 0;
`LoadFromJson` sends every key of every linear expression through this
conversion. -/
theorem claim_C8_amended :
    (∀ (c : Char) (cs : List Char), (∀ x ∈ c :: cs, isDecDigit x = true) →
      (digitsVal (c :: cs) : Int) ≤ int64Max →
      stringToInt (String.mk (c :: cs)) = (digitsVal (c :: cs) : Int)) ∧
    (∀ (c : Char) (cs : List Char), (∀ x ∈ c :: cs, isDecDigit x = true) →
      (digitsVal (c :: cs) : Int) ≤ 2 ^ 63 →
      stringToInt (String.mk ('-' :: c :: cs)) =
        -(digitsVal (c :: cs) : Int)) ∧
    (∀ (c : Char) (cs : List Char), ¬ isDecDigit c = true →
      isGoSpace c = false → c ≠ '-' → c ≠ '+' →
      stringToInt (String.mk (c :: cs)) = 0) ∧
    (∀ (c : Char) (cs : List Char), isGoSpace c = true → c ≠ '\n' →
      stringToInt (String.mk (c :: cs)) = stringToInt (String.mk cs)) ∧
    (∀ cs : List Char, stringToInt (String.mk ('\n' :: cs)) = 0) ∧
    (∀ (c : Char) (cs : List Char), (∀ x ∈ c :: cs, isDecDigit x = true) →
      int64Max < (digitsVal (c :: cs) : Int) →
      stringToInt (String.mk (c :: cs)) = 0) ∧
    (∀ (doc : ConstraintsDoc), ∀ t ∈ doc,
      (t.1.map stringToInt, t.2.1.map stringToInt, t.2.2.map stringToInt) ∈
        LoadFromJson doc) := by
  refine ⟨?_, ?_, ?_, ?_, ?_, ?_, ?_⟩
  · intro c cs hdig hmax
    unfold stringToInt
    rw [show (String.mk (c :: cs)).toList = c :: cs from rfl,
      scanInt64_digits hdig hmax]
    rfl
  · intro c cs hdig hmax
    unfold stringToInt
    rw [show (String.mk ('-' :: c :: cs)).toList = '-' :: c :: cs from rfl,
      scanInt64_neg_digits hdig hmax]
    rfl
  · intro c cs hnd hsp h3 h4
    unfold stringToInt
    rw [show (String.mk (c :: cs)).toList = c :: cs from rfl,
      scanInt64_no_digit hnd hsp h3 h4]
    rfl
  · intro c cs hsp hnl
    unfold stringToInt
    rw [show (String.mk (c :: cs)).toList = c :: cs from rfl,
      show (String.mk cs).toList = cs from rfl,
      scanInt64_skip_space hsp hnl]
  · intro cs
    unfold stringToInt
    rw [show (String.mk ('\n' :: cs)).toList = '\n' :: cs from rfl,
      scanInt64_newline cs]
    rfl
  · intro c cs hdig hmax
    unfold stringToInt
    rw [show (String.mk (c :: cs)).toList = c :: cs from rfl,
      scanInt64_overflow hdig hmax]
    rfl
  · intro doc t ht
    exact List.mem_map.mpr ⟨t, ht, rfl⟩

/-- Witness for C8: the all-digit key `"427"` yields 427. -/
theorem claim_C8_witness : stringToInt "427" = 427 := by
  have h := claim_C8_amended.1 '4' ['2', '7'] (by decide) (by decide)
  exact h

/-! ### Claim C10 -/

/-- Claim C10: for every count the synthesizer returns exactly that many
integers, each in the inclusive range [2, 15]. -/
theorem claim_C10_random_args (count : Nat) (rng : Nat → Nat) :
    (GenerateRandomArgs count rng).length = count ∧
    ∀ x ∈ GenerateRandomArgs count rng, 2 ≤ x ∧ x ≤ 15 := by
  constructor
  · unfold GenerateRandomArgs
    rw [List.length_map, List.length_range]
  · intro x hx
    obtain ⟨i, -, rfl⟩ := List.mem_map.mp hx
    have h14 : rng i % 14 < 14 := Nat.mod_lt _ (by omega)
    have hcast : ((rng i % 14 : Nat) : Int) ≤ 13 := by
      exact_mod_cast Nat.le_of_lt_succ h14
    have h0 : (0 : Int) ≤ ((rng i % 14 : Nat) : Int) := Int.natCast_nonneg _
    omega

/-- Witness for C10: the first draw of a concrete stream lands in
[2, 15]. -/
theorem claim_C10_witness : 2 ≤ (8 : Int) ∧ (8 : Int) ≤ 15 :=
  (claim_C10_random_args 3 (fun i => 20 + i)).2 8 (by decide)

end CircuitGraph
